import Mathlib

/-!
Verification of the spline-interpolation and Fourier-sampling core of
`core/interpolation.cpp` (pbrt).  The spline routines are embedded over `ℚ`
(the C++ code is plain rational arithmetic on `Float` values; we model the
real-number semantics exactly), the Fourier sampler over `ℝ` since it uses
`cos` and `π`.  Sequences are `List ℚ` / `List ℝ`; C++ indexing `a[i]`
becomes `nth a i` (`List.getD` with default 0; all accesses the proofs
depend on are shown to be in bounds).  The unbounded `while` loops of the
Newton–bisection solvers are embedded with an explicit fuel argument,
returning `none` when the fuel runs out before the loop's own `break` fires.

The one-sided finite-difference derivatives `d0`, `d1` and the Hermite basis
combination appear verbatim in several routines of the source
(`CatmullRom`, `SampleCatmullRom`, `IntegrateCatmullRom`); they are factored
here into the helpers `d0At`, `d1At` and `hermite`, each of which is a
literal transcription of the repeated source expressions.
-/

namespace PbrtInterp

/-- C++ `a[i]` on a numeric slice: `List.getD` with default `0`. -/
def nth (l : List ℚ) (i : ℕ) : ℚ := l.getD i 0

/-- Modelled from the spec (§4.1): the body of the binary-search loop of the
interval-search primitive `GetIntArrayerval`, whose definition (`mathutil.h`)
is not part of the available sources.  State `(first, len)` is the candidate
window; each step probes `middle = first + len/2` and narrows the window,
exactly as the spec describes ("binary search over [0, n-1]; maintains first
candidate guaranteed true, narrows via midpoint").  The loop runs while
`len > 0` and `len` strictly decreases; `fuel ≥ len` holds at every call
site, so the fuel never runs out — it only makes the recursion structural. -/
def getIntGo (P : ℕ → Bool) : ℕ → ℕ → ℕ → ℕ
  | 0, first, _ => first
  | fuel + 1, first, len =>
    if len = 0 then first
    else
      let half := len / 2
      let middle := first + half
      if P middle then getIntGo P fuel (middle + 1) (len - (half + 1))
      else getIntGo P fuel first half

/-- Modelled from the spec (§4.1): `GetIntArrayerval(size, pred)` — binary
search for the last index satisfying a monotone predicate, with the final
result clamped to `[0, size - 2]` ("final clamp to n-2 guards against
choosing the last index"). -/
def GetIntArrayerval (n : ℕ) (P : ℕ → Bool) : ℕ :=
  (max 0 (min ((getIntGo P n 0 n : ℤ) - 1) ((n : ℤ) - 2))).toNat

/-- The one-sided finite-difference derivative `d0` of spline segment `i`, as
computed identically in `CatmullRom`, `SampleCatmullRom` and
`IntegrateCatmullRom` (`core/interpolation.cpp`):
`d0 = width * (f1 - values[i-1]) / (x1 - x[i-1])` when `i > 0`, else the
boundary fallback `f1 - f0`. -/
def d0At (x v : List ℚ) (i : ℕ) : ℚ :=
  if 0 < i then (nth x (i + 1) - nth x i) * (nth v (i + 1) - nth v (i - 1)) /
      (nth x (i + 1) - nth x (i - 1))
  else nth v (i + 1) - nth v i

/-- The one-sided finite-difference derivative `d1` of spline segment `i`
(see `d0At`): `d1 = width * (values[i+2] - f0) / (x[i+2] - x0)` when
`i + 2 < x.size()`, else the boundary fallback `f1 - f0`. -/
def d1At (x v : List ℚ) (i : ℕ) : ℚ :=
  if i + 2 < x.length then (nth x (i + 1) - nth x i) * (nth v (i + 2) - nth v i) /
      (nth x (i + 2) - nth x i)
  else nth v (i + 1) - nth v i

/-- The cubic Hermite combination returned by `CatmullRom` (and solved for in
`InvertCatmullRom`):
`(2t³-3t²+1) f0 + (-2t³+3t²) f1 + (t³-2t²+t) d0 + (t³-t²) d1`. -/
def hermite (f0 f1 d0 d1 t : ℚ) : ℚ :=
  (2 * t ^ 3 - 3 * t ^ 2 + 1) * f0 + (-2 * t ^ 3 + 3 * t ^ 2) * f1 +
    (t ^ 3 - 2 * t ^ 2 + t) * d0 + (t ^ 3 - t ^ 2) * d1

/-- `CatmullRom(nodes, values, x)` from `core/interpolation.cpp`: evaluate the
Catmull-Rom spline through `(nodes[i], values[i])` at `x`; `0` outside the
node range. -/
def CatmullRom (nodes values : List ℚ) (x : ℚ) : ℚ :=
  if ¬(nth nodes 0 ≤ x ∧ x ≤ nth nodes (nodes.length - 1)) then 0
  else
    let idx := GetIntArrayerval nodes.length (fun i => decide (nth nodes i ≤ x))
    let t := (x - nth nodes idx) / (nth nodes (idx + 1) - nth nodes idx)
    hermite (nth values idx) (nth values (idx + 1))
      (d0At nodes values idx) (d1At nodes values idx) t

/-- The weight computation of `CatmullRomWeights` (`core/interpolation.cpp`)
for the already-located segment `idx` of a node list with `n` entries:
starting from the base weights `w1 = 2t³-3t²+1`, `w2 = -2t³+3t²`, the first
and last node weights are added (or folded into the inner weights at the
domain edges), exactly as in the source. -/
def crWeightsAt (nodes : List ℚ) (x : ℚ) (idx n : ℕ) : ℚ × ℚ × ℚ × ℚ :=
  let x0 := nth nodes idx
  let x1 := nth nodes (idx + 1)
  let t := (x - x0) / (x1 - x0)
  let t2 := t * t
  let t3 := t2 * t
  let w1a := 2 * t3 - 3 * t2 + 1
  let w2a := -2 * t3 + 3 * t2
  let s0 :=
    if 0 < idx then
      let w0 := (t3 - 2 * t2 + t) * (x1 - x0) / (x1 - nth nodes (idx - 1))
      (-w0, w1a, w2a + w0)
    else
      let w0 := t3 - 2 * t2 + t
      ((0 : ℚ), w1a - w0, w2a + w0)
  if idx + 2 < n then
    let w3 := (t3 - t2) * (x1 - x0) / (nth nodes (idx + 2) - x0)
    (s0.1, s0.2.1 - w3, s0.2.2, w3)
  else
    let w3 := t3 - t2
    (s0.1, s0.2.1 - w3, s0.2.2 + w3, (0 : ℚ))

/-- `CatmullRomWeights(nodes, x, &offset, weights)` from
`core/interpolation.cpp`.  The C++ routine reports failure through its `bool`
return, leaving the weight buffer untouched in that case; the pair
`(offset, weights)` is modelled as an `Option`, `none` exactly when the
source returns `false`. -/
def CatmullRomWeights (nodes : List ℚ) (x : ℚ) : Option (ℤ × (ℚ × ℚ × ℚ × ℚ)) :=
  if ¬(nth nodes 0 ≤ x ∧ x ≤ nth nodes (nodes.length - 1)) then none
  else
    let idx := GetIntArrayerval nodes.length (fun i => decide (nth nodes i ≤ x))
    some ((idx : ℤ) - 1, crWeightsAt nodes x idx nodes.length)

/-- The body of the loop of `IntegrateCatmullRom` (`core/interpolation.cpp`):
the closed-form integral `((d0 - d1)/12 + (f0 + f1)/2) * width` of the
Hermite cubic of segment `i`. -/
def segInt (x values : List ℚ) (i : ℕ) : ℚ :=
  ((d0At x values i - d1At x values i) * (1 / 12) +
      (nth values i + nth values (i + 1)) * (1 / 2)) * (nth x (i + 1) - nth x i)

/-- `IntegrateCatmullRom(x, values, cdf)` from `core/interpolation.cpp`.  The
C++ routine keeps a running `sum` over segments `0 ≤ i < n-1`, writing
`cdf[0] = 0` and `cdf[i+1] = sum` after segment `i`, and returns the final
`sum`; the running sums are expressed as prefix sums of the per-segment
integrals.  Result: (the filled `cdf` buffer, the returned total). -/
def IntegrateCatmullRom (x values : List ℚ) : List ℚ × ℚ :=
  let m := x.length - 1
  (0 :: (List.range m).map (fun i => ((List.range (i + 1)).map (segInt x values)).sum),
   ((List.range m).map (segInt x values)).sum)

/-- Modelled from the spec: `SafeSqrt` (`mathutil.h`, not among the available
sources) is the square root "guarded … against negative discriminant", i.e.
`sqrt (max x 0)`.  `ℚ` is not closed under square roots; `Rat.sqrt` is exact
whenever the argument is a square of a rational (which it is at every input
where a proof below depends on the value — the theorems about the sampling
loop hold for an arbitrary initial guess). -/
def SafeSqrt (x : ℚ) : ℚ := Rat.sqrt (max x 0)

/-- The Newton–bisection `while (true)` loop of `SampleCatmullRom`
(`core/interpolation.cpp`), with explicit fuel.  State: bracket `[a, b]` and
current iterate `t`; returns `(t, fhat)` at the loop's `break`, `none` if the
fuel is exhausted first. -/
def sampleLoop (f0 f1 d0 d1 u : ℚ) : ℕ → ℚ → ℚ → ℚ → Option (ℚ × ℚ)
  | 0, _, _, _ => none
  | fuel + 1, a, b, t =>
    let t' := if ¬(t > a ∧ t < b) then (1 / 2) * (a + b) else t
    let Fhat := t' * (f0 + t' * ((1 / 2) * d0 + t' *
      ((1 / 3) * (-2 * d0 - d1) + f1 - f0 + t' * ((1 / 4) * (d0 + d1) + (1 / 2) * (f0 - f1)))))
    let fhat := f0 + t' * (d0 + t' * (-2 * d0 - d1 + 3 * (f1 - f0) + t' *
      (d0 + d1 + 2 * (f0 - f1))))
    if |Fhat - u| < 1 / 1000000 ∨ b - a < 1 / 1000000 then some (t', fhat)
    else
      let a' := if Fhat - u < 0 then t' else a
      let b' := if Fhat - u < 0 then b else t'
      sampleLoop f0 f1 d0 d1 u fuel a' b' (t' - (Fhat - u) / fhat)

/-- `SampleCatmullRom(x, f, F, u, &fval, &pdf)` from `core/interpolation.cpp`.
Returns `(sampled position, *fval, *pdf)`, or `none` when the fuel given to
the Newton–bisection loop runs out before its `break`. -/
def SampleCatmullRom (fuel : ℕ) (x f F : List ℚ) (u : ℚ) : Option (ℚ × ℚ × ℚ) :=
  let u1 := u * nth F (F.length - 1)
  let i := GetIntArrayerval F.length (fun j => decide (nth F j ≤ u1))
  let x0 := nth x i
  let x1 := nth x (i + 1)
  let f0 := nth f i
  let f1 := nth f (i + 1)
  let width := x1 - x0
  let u2 := (u1 - nth F i) / width
  let t0 := if f0 ≠ f1 then (f0 - SafeSqrt (f0 * f0 + 2 * u2 * (f1 - f0))) / (f0 - f1)
            else u2 / f0
  match sampleLoop f0 f1 (d0At x f i) (d1At x f i) u2 fuel 0 1 t0 with
  | none => none
  | some (t, fhat) => some (x0 + width * t, fhat, fhat / nth F (F.length - 1))

/-- The `interpolate` lambda of `SampleCatmullRom2D` (`core/interpolation.cpp`):
interpolate four consecutive rows of the 2D table `array` at column `idx`
with the weights/offset produced by `CatmullRomWeights` along the first axis,
skipping zero weights.  `size2` is `nodes2.size()`. -/
def interpolate2D (array : List ℚ) (size2 : ℕ) (offset : ℤ) (w : ℚ × ℚ × ℚ × ℚ)
    (idx : ℕ) : ℚ :=
  (if w.1 ≠ 0 then nth array ((offset + 0).toNat * size2 + idx) * w.1 else 0) +
    (if w.2.1 ≠ 0 then nth array ((offset + 1).toNat * size2 + idx) * w.2.1 else 0) +
    (if w.2.2.1 ≠ 0 then nth array ((offset + 2).toNat * size2 + idx) * w.2.2.1 else 0) +
    (if w.2.2.2 ≠ 0 then nth array ((offset + 3).toNat * size2 + idx) * w.2.2.2 else 0)

/-- The sorted ten-element array `{0, ..., 9}` of the interval-search test
scenario (`tests/find_interval.cpp`). -/
def gridTen : List ℚ := [0, 1, 2, 3, 4, 5, 6, 7, 8, 9]

/-- A strictly increasing node sequence (the precondition on node arrays,
spec §3/§6), stated index-wise over `nth` and bounded so that it is decidable
on concrete lists. -/
def StrictIncr (l : List ℚ) : Prop :=
  ∀ j, j < l.length → ∀ i, i < j → nth l i < nth l j

/-- The weighted sum of the C1 claim: `Σ_{j, weights[j] ≠ 0} weights[j] *
values[offset + j]`, skipping entries with zero weight (whose index may fall
outside the value array). -/
def weightedSum (values : List ℚ) (off : ℤ) (w : ℚ × ℚ × ℚ × ℚ) : ℚ :=
  (if w.1 ≠ 0 then w.1 * nth values (off + 0).toNat else 0) +
    (if w.2.1 ≠ 0 then w.2.1 * nth values (off + 1).toNat else 0) +
    (if w.2.2.1 ≠ 0 then w.2.2.1 * nth values (off + 2).toNat else 0) +
    (if w.2.2.2 ≠ 0 then w.2.2.2 * nth values (off + 3).toNat else 0)

/-! ### Fourier sampling (over ℝ, since the source uses `cos` and `π`) -/

/-- The inner `for (k = 1 .. ak.size()-1)` loop of `SampleFourier`
(`core/interpolation.cpp`): advance the paired sine/cosine recurrences and
accumulate `F += ak[k] * recip[k] * sin(k φ)` and `f += ak[k] * cos(k φ)`.
State `s = (sinPrev, sinCur, cosPrev, cosCur)`, accumulator `Ff = (F, f)`;
the list carries the `(ak[k], recip[k])` pairs. -/
noncomputable def fourierLoop (cosPhi : ℝ) :
    List (ℝ × ℝ) → (ℝ × ℝ × ℝ × ℝ) → ℝ × ℝ → ℝ × ℝ
  | [], _, Ff => Ff
  | (a, r) :: rest, s, Ff =>
    let sinNext := 2 * cosPhi * s.2.1 - s.1
    let cosNext := 2 * cosPhi * s.2.2.2 - s.2.2.1
    fourierLoop cosPhi rest (s.2.1, sinNext, s.2.2.2, cosNext)
      (Ff.1 + a * r * sinNext, Ff.2 + a * cosNext)

/-- One evaluation of `F(φ)` and `f(φ)` inside the `while` loop of
`SampleFourier` (`core/interpolation.cpp`): initialize the iterates from
`cos φ` and `sin φ = SafeSqrt(1 - cos²φ)`, seed `F = ak[0]·φ`, `f = ak[0]`,
run the recurrence over the remaining coefficients, and subtract
`u · ak[0] · π` from `F`. -/
noncomputable def fourierFF (ak recip : List ℝ) (u phi : ℝ) : ℝ × ℝ :=
  let cosPhi := Real.cos phi
  let sinPhi := Real.sqrt (max (1 - cosPhi * cosPhi) 0)
  let a0 := ak.getD 0 0
  let Ff := fourierLoop cosPhi ((ak.drop 1).zip (recip.drop 1))
    (-sinPhi, 0, cosPhi, 1) (a0 * phi, a0)
  (Ff.1 - u * a0 * Real.pi, Ff.2)

/-- The Newton–bisection `while (true)` loop of `SampleFourier`
(`core/interpolation.cpp`), with explicit fuel.  Per iteration: evaluate
`(F, f)`, update the bisection bounds (`b := φ` when `F > 0`, else
`a := φ`), break when `|F| < 1e-6` or `b - a < 1e-6`, otherwise take a
Newton step and fall back to the midpoint when it leaves the bracket. -/
noncomputable def sampleFourierLoop (ak recip : List ℝ) (u : ℝ) :
    ℕ → ℝ → ℝ → ℝ → Option (ℝ × ℝ)
  | 0, _, _, _ => none
  | fuel + 1, a, b, phi =>
    let Ff := fourierFF ak recip u phi
    let a' := if Ff.1 > 0 then a else phi
    let b' := if Ff.1 > 0 then phi else b
    if |Ff.1| < 1 / 1000000 ∨ b' - a' < 1 / 1000000 then some (phi, Ff.2)
    else
      let phiN := phi - Ff.1 / Ff.2
      let phiNext := if ¬(phiN > a' ∧ phiN < b') then (1 / 2) * (a' + b') else phiN
      sampleFourierLoop ak recip u fuel a' b' phiNext

/-- `SampleFourier(ak, recip, u, &pdf, &phiPtr)` from
`core/interpolation.cpp`: flip `u` onto the half-interval `[0, π]`
(exploiting the symmetry of the series about `φ = π`), run the
Newton–bisection from `a = 0`, `b = π`, `φ = π/2`, mirror `φ` back when the
flip was taken, and return `(f, Inv2Pi · f / ak[0], φ)`; `none` when the
fuel runs out before the loop breaks. -/
noncomputable def SampleFourier (fuel : ℕ) (ak recip : List ℝ) (u : ℝ) :
    Option (ℝ × ℝ × ℝ) :=
  let u' := if u ≥ 1 / 2 then 1 - 2 * (u - 1 / 2) else 2 * u
  match sampleFourierLoop ak recip u' fuel 0 Real.pi ((1 / 2) * Real.pi) with
  | none => none
  | some (phi, f) =>
    let phiOut := if u ≥ 1 / 2 then 2 * Real.pi - phi else phi
    some (f, (1 / (2 * Real.pi)) * f / ak.getD 0 0, phiOut)

/-! ### Interval search -/

/-- Correctness of the binary-search loop: if the predicate is `true` exactly
below `k` on the window of interest, the search returns `k` (the count of
`true` indices, i.e. one past the last `true` index). -/
theorem getIntGo_eq (P : ℕ → Bool) (k : ℕ) :
    ∀ fuel len first, len ≤ fuel → first ≤ k → k ≤ first + len →
      (∀ i, i < first + len → (P i = true ↔ i < k)) →
      getIntGo P fuel first len = k := by
  intro fuel
  induction fuel with
  | zero =>
    intro len first hlf h1 h2 _
    have hlen : len = 0 := by omega
    subst hlen
    simp only [getIntGo]
    omega
  | succ fuel ih =>
    intro len first hlf h1 h2 hchar
    by_cases h0 : len = 0
    · subst h0
      rw [getIntGo, if_pos rfl]
      omega
    · rw [getIntGo]
      simp only [if_neg h0]
      by_cases hp : P (first + len / 2) = true
      · have hklo : first + len / 2 < k := (hchar _ (by omega)).mp hp
        simp only [hp, if_true]
        exact ih _ _ (by omega) (by omega) (by omega)
          (fun i hi => hchar i (by omega))
      · have hkhi : k ≤ first + len / 2 := by
          by_contra hcon
          exact hp ((hchar _ (by omega)).mpr (by omega))
        simp only [hp, if_false]
        exact ih _ _ (by omega) (by omega) (by omega)
          (fun i hi => hchar i (by omega))

/-- The clamp at the end of `GetIntArrayerval` keeps the result at or below
`n - 2`, whatever the predicate does. -/
theorem GetIntArrayerval_le (n : ℕ) (P : ℕ → Bool) (hn : 2 ≤ n) :
    GetIntArrayerval n P ≤ n - 2 := by
  unfold GetIntArrayerval
  omega

/-- `GetIntArrayerval` on a predicate that is `true` exactly below `k`
(`0 ≤ k ≤ n`): the last `true` index clamped to `[0, n-2]` (Nat subtraction
makes `min (k-1) (n-2)` also cover the all-`false` case `k = 0`). -/
theorem GetIntArrayerval_eq (n k : ℕ) (P : ℕ → Bool) (hn : 2 ≤ n) (hkn : k ≤ n)
    (hchar : ∀ i, i < n → (P i = true ↔ i < k)) :
    GetIntArrayerval n P = min (k - 1) (n - 2) := by
  unfold GetIntArrayerval
  rw [getIntGo_eq P k n n 0 le_rfl (by omega) (by omega) (fun i hi => hchar i (by omega))]
  omega

/-- Claim C2: for every size `n ≥ 2` and monotone predicate `P` (true on a
prefix of the indices, false afterwards), `GetIntArrayerval` returns the
largest index satisfying `P`, clamped to `[0, n-2]` (`0` when no index
satisfies `P`); and for the sorted array `{0,...,9}` with predicate
`a[i] ≤ v` it returns `0` for `v` below the first element, `n-2 = 8` beyond
the last, and the exact containing-segment index at integer and half-integer
probes. -/
theorem GetIntArrayerval_largest_clamped (n : ℕ) (P : ℕ → Bool) (hn : 2 ≤ n)
    (hmono : ∀ i j, i ≤ j → j < n → P j = true → P i = true) :
    ((∀ i, i < n → P i = false) → GetIntArrayerval n P = 0) ∧
    (∀ m, m < n → P m = true → (∀ j, j < n → P j = true → j ≤ m) →
      GetIntArrayerval n P = min m (n - 2)) ∧
    (GetIntArrayerval 10 (fun i => decide (nth gridTen i ≤ (-1 : ℚ))) = 0 ∧
     GetIntArrayerval 10 (fun i => decide (nth gridTen i ≤ (100 : ℚ))) = 8 ∧
     ∀ i : ℕ, i < 9 →
       GetIntArrayerval 10 (fun j => decide (nth gridTen j ≤ (i : ℚ))) = i ∧
       GetIntArrayerval 10 (fun j => decide (nth gridTen j ≤ (i : ℚ) + 1 / 2)) = i ∧
       (0 < i → GetIntArrayerval 10 (fun j => decide (nth gridTen j ≤ (i : ℚ) - 1 / 2)) = i - 1)) := by
  refine ⟨?_, ?_, ?_⟩
  · intro hall
    have h := GetIntArrayerval_eq n 0 P hn (by omega)
      (fun i hi => by simp [hall i hi])
    omega
  · intro m hm hPm hmax
    have hchar : ∀ i, i < n → (P i = true ↔ i < m + 1) := by
      intro i hi
      constructor
      · intro h
        have := hmax i hi h
        omega
      · intro h
        exact hmono i m (by omega) hm hPm
    have h := GetIntArrayerval_eq n (m + 1) P hn (by omega) hchar
    omega
  · exact of_decide_eq_true (by with_unfolding_all rfl)

/-- Witness for `GetIntArrayerval_largest_clamped` at the concrete monotone
predicate `gridTen[i] ≤ 3` on `n = 10`. -/
theorem GetIntArrayerval_largest_clamped_witness :
    GetIntArrayerval 10 (fun i => decide (nth gridTen i ≤ (3 : ℚ))) = min 3 8 := by
  have hmono : ∀ j, j < 10 → ∀ i, i ≤ j →
      (decide (nth gridTen j ≤ (3 : ℚ)) = true) →
      (decide (nth gridTen i ≤ (3 : ℚ)) = true) :=
    of_decide_eq_true (by with_unfolding_all rfl)
  have hmax : ∀ j, j < 10 → (decide (nth gridTen j ≤ (3 : ℚ)) = true) → j ≤ 3 :=
    of_decide_eq_true (by with_unfolding_all rfl)
  exact (GetIntArrayerval_largest_clamped 10 _ (by norm_num)
    (fun i j hij hj h => hmono j hj i hij h)).2.1 3 (by norm_num)
    (of_decide_eq_true (by with_unfolding_all rfl)) hmax

/-! ### Spline segment location -/

theorem StrictIncr.mono_le {l : List ℚ} (h : StrictIncr l) {i j : ℕ}
    (hij : i ≤ j) (hj : j < l.length) : nth l i ≤ nth l j := by
  rcases Nat.eq_or_lt_of_le hij with rfl | hlt
  · exact le_rfl
  · exact le_of_lt (h j hj i hlt)

/-- Locating `y` with `GetIntArrayerval` over a strictly increasing node list:
if `nodes[i] ≤ y < nodes[i+1]` and `i ≤ n-2`, the search returns `i`. -/
theorem getInt_nodes_eq (nodes : List ℚ) (y : ℚ) (i : ℕ) (hst : StrictIncr nodes)
    (hn : 2 ≤ nodes.length) (hi : i ≤ nodes.length - 2)
    (hilo : nth nodes i ≤ y) (hihi : y < nth nodes (i + 1)) :
    GetIntArrayerval nodes.length (fun j => decide (nth nodes j ≤ y)) = i := by
  have hchar : ∀ j, j < nodes.length →
      ((decide (nth nodes j ≤ y) : Bool) = true ↔ j < i + 1) := by
    intro j hj
    simp only [decide_eq_true_eq]
    constructor
    · intro hle
      by_contra hcon
      have : nth nodes (i + 1) ≤ nth nodes j := hst.mono_le (by omega) hj
      linarith
    · intro hji
      exact le_trans (hst.mono_le (by omega) (by omega)) hilo
  have h := GetIntArrayerval_eq nodes.length (i + 1) _ hn (by omega) hchar
  omega

/-- Locating the right endpoint: for `y = nodes.back()` (or any `y` at or
beyond every node) the search returns `n - 2`. -/
theorem getInt_nodes_back (nodes : List ℚ) (y : ℚ) (hst : StrictIncr nodes)
    (hn : 2 ≤ nodes.length) (hall : nth nodes (nodes.length - 1) ≤ y) :
    GetIntArrayerval nodes.length (fun j => decide (nth nodes j ≤ y)) =
      nodes.length - 2 := by
  have hchar : ∀ j, j < nodes.length →
      ((decide (nth nodes j ≤ y) : Bool) = true ↔ j < nodes.length) := by
    intro j hj
    simp only [decide_eq_true_eq, hj, iff_true]
    exact le_trans (hst.mono_le (by omega) (by omega)) hall
  have h := GetIntArrayerval_eq nodes.length nodes.length _ hn le_rfl hchar
  omega

/-- Claim C7: `CatmullRom` returns 0 for every query outside
`[nodes.front(), nodes.back()]`, and reproduces the tabulated value exactly
at every node. -/
theorem catmullRom_boundary (nodes values : List ℚ)
    (hst : StrictIncr nodes) (hn : 2 ≤ nodes.length)
    (hlen : values.length = nodes.length) :
    (∀ x : ℚ, (x < nth nodes 0 ∨ nth nodes (nodes.length - 1) < x) →
      CatmullRom nodes values x = 0) ∧
    (∀ i, i < nodes.length → CatmullRom nodes values (nth nodes i) = nth values i) := by
  constructor
  · intro x hx
    have hcond : ¬(nth nodes 0 ≤ x ∧ x ≤ nth nodes (nodes.length - 1)) := by
      rcases hx with h | h
      · exact fun hc => absurd hc.1 (not_le.mpr h)
      · exact fun hc => absurd hc.2 (not_le.mpr h)
    rw [CatmullRom, if_pos hcond]
  · intro i hi
    have hdom : nth nodes 0 ≤ nth nodes i ∧
        nth nodes i ≤ nth nodes (nodes.length - 1) :=
      ⟨hst.mono_le (by omega) hi, hst.mono_le (by omega) (by omega)⟩
    rw [CatmullRom, if_neg (not_not_intro hdom)]
    by_cases hcase : i ≤ nodes.length - 2
    · have hidx : GetIntArrayerval nodes.length
          (fun j => decide (nth nodes j ≤ nth nodes i)) = i :=
        getInt_nodes_eq nodes (nth nodes i) i hst hn hcase le_rfl
          (hst (i + 1) (by omega) i (by omega))
      simp only [hidx, sub_self, zero_div, hermite]
      ring
    · have hieq : i = nodes.length - 1 := by omega
      have hidx : GetIntArrayerval nodes.length
          (fun j => decide (nth nodes j ≤ nth nodes i)) = nodes.length - 2 :=
        getInt_nodes_back nodes (nth nodes i) hst hn (by rw [hieq])
      have hsucc : nodes.length - 2 + 1 = i := by omega
      have hne : nth nodes i - nth nodes (nodes.length - 2) ≠ 0 := by
        have := hst i hi (nodes.length - 2) (by omega)
        linarith
      simp only [hidx, hsucc, div_self hne, hermite]
      ring

/-- Witness for `catmullRom_boundary`: the boundary-scenario table
`nodes = {0,1,2,3}`, `values = {0,1,0,1}` (spec §8); at `x = 3` outside
queries return 0 and `CatmullRom 3 = 1` exactly. -/
theorem catmullRom_boundary_witness :
    CatmullRom [0, 1, 2, 3] [0, 1, 0, 1] 4 = 0 ∧
    CatmullRom [0, 1, 2, 3] [0, 1, 0, 1] 3 = 1 := by
  have hst : StrictIncr [0, 1, 2, 3] := by
    unfold StrictIncr
    exact of_decide_eq_true (by with_unfolding_all rfl)
  have h := catmullRom_boundary [0, 1, 2, 3] [0, 1, 0, 1] hst (by norm_num) (by norm_num)
  refine ⟨?_, ?_⟩
  · have h4 : (4 : ℚ) < nth [0, 1, 2, 3] 0 ∨ nth [0, 1, 2, 3] (4 - 1) < 4 := by
      right
      norm_num [nth]
    exact h.1 4 (by simpa using h4)
  · have h3 := h.2 3 (by norm_num)
    have hn3 : nth [0, 1, 2, 3] 3 = 3 := by norm_num [nth]
    have hv3 : nth [0, 1, 0, 1] 3 = 1 := by norm_num [nth]
    rw [hn3, hv3] at h3
    exact h3

/-! ### Weight identities -/

theorem ite_ne_mul (w v : ℚ) : (if w ≠ 0 then w * v else 0) = w * v := by
  split_ifs with h
  · rfl
  · rw [not_ne_iff.mp h, zero_mul]

/-- The four Catmull-Rom weights always sum to 1 (the edge corrections cancel
pairwise). -/
theorem crWeightsAt_sum (nodes : List ℚ) (x : ℚ) (idx n : ℕ) :
    (crWeightsAt nodes x idx n).1 + (crWeightsAt nodes x idx n).2.1 +
      (crWeightsAt nodes x idx n).2.2.1 + (crWeightsAt nodes x idx n).2.2.2 = 1 := by
  unfold crWeightsAt
  dsimp only
  split_ifs <;> dsimp only <;> ring

/-- At the left edge (`idx = 0`) the first weight is forced to 0. -/
theorem crWeightsAt_fst (nodes : List ℚ) (x : ℚ) (n : ℕ) :
    (crWeightsAt nodes x 0 n).1 = 0 := by
  unfold crWeightsAt
  dsimp only
  rw [if_neg (by omega : ¬ (0 : ℕ) < 0)]
  split_ifs <;> rfl

/-- At the right edge (`idx + 2 ≥ n`) the last weight is forced to 0. -/
theorem crWeightsAt_last (nodes : List ℚ) (x : ℚ) (idx n : ℕ) (h : ¬ idx + 2 < n) :
    (crWeightsAt nodes x idx n).2.2.2 = 0 := by
  unfold crWeightsAt
  dsimp only
  rw [if_neg h]

/-- Dotting the weights of segment `idx` with the four surrounding values
reproduces the Hermite evaluation with the one-sided finite-difference
derivatives — the segment-level algebraic heart of claim C1.  (The identity
is unconditional: the edge corrections match the derivative fallbacks case
by case.) -/
theorem weightedSum_eq_hermite (nodes values : List ℚ) (x : ℚ) (idx : ℕ) :
    weightedSum values ((idx : ℤ) - 1) (crWeightsAt nodes x idx nodes.length) =
      hermite (nth values idx) (nth values (idx + 1))
        (d0At nodes values idx) (d1At nodes values idx)
        ((x - nth nodes idx) / (nth nodes (idx + 1) - nth nodes idx)) := by
  have hi1 : ((idx : ℤ) - 1 + 1).toNat = idx := by omega
  have hi2 : ((idx : ℤ) - 1 + 2).toNat = idx + 1 := by omega
  have hi3 : ((idx : ℤ) - 1 + 3).toNat = idx + 2 := by omega
  by_cases h0 : 0 < idx
  · have hi0 : ((idx : ℤ) - 1 + 0).toNat = idx - 1 := by omega
    by_cases h2 : idx + 2 < nodes.length
    · unfold weightedSum crWeightsAt hermite d0At d1At
      simp only [if_pos h0, if_pos h2, hi0, hi1, hi2, hi3, ite_ne_mul]
      ring
    · unfold weightedSum crWeightsAt hermite d0At d1At
      simp only [if_pos h0, if_neg h2, hi0, hi1, hi2, hi3, ite_ne_mul]
      ring
  · have hidx : idx = 0 := by omega
    subst hidx
    by_cases h2 : 0 + 2 < nodes.length
    · unfold weightedSum crWeightsAt hermite d0At d1At
      simp only [if_neg h0, if_pos h2, hi1, hi2, hi3, ite_ne_mul]
      ring
    · unfold weightedSum crWeightsAt hermite d0At d1At
      simp only [if_neg h0, if_neg h2, hi1, hi2, hi3, ite_ne_mul]
      ring

/-- Claim C1: for every strictly increasing node sequence (length ≥ 2),
paired value sequence of equal length, and every `x` in
`[nodes.front(), nodes.back()]`, the weights and offset produced by
`CatmullRomWeights` reproduce point evaluation: the sum over `j ∈ {0,1,2,3}`
with `weights[j] ≠ 0` of `weights[j] * values[offset+j]` equals
`CatmullRom(nodes, values, x)`. -/
theorem catmullRomWeights_reproduce (nodes values : List ℚ) (x : ℚ)
    (hst : StrictIncr nodes) (hn : 2 ≤ nodes.length)
    (hlen : values.length = nodes.length)
    (hlo : nth nodes 0 ≤ x) (hhi : x ≤ nth nodes (nodes.length - 1)) :
    ∀ off w, CatmullRomWeights nodes x = some (off, w) →
      weightedSum values off w = CatmullRom nodes values x := by
  intro off w h
  rw [CatmullRomWeights, if_neg (not_not_intro ⟨hlo, hhi⟩)] at h
  simp only [Option.some.injEq, Prod.mk.injEq] at h
  obtain ⟨h1, h2⟩ := h
  rw [CatmullRom, if_neg (not_not_intro ⟨hlo, hhi⟩)]
  rw [← h1, ← h2]
  exact weightedSum_eq_hermite nodes values x _

/-- Witness for `catmullRomWeights_reproduce`: the table
`nodes = {0,1,2,3}`, `values = {0,1,0,1}` at `x = 3/2`, where the weights are
`(-1/16, 9/16, 9/16, -1/16)` at offset 0 and both sides evaluate to 1/2. -/
theorem catmullRomWeights_reproduce_witness :
    weightedSum [0, 1, 0, 1] 0 (-(1 / 16), 9 / 16, 9 / 16, -(1 / 16)) =
      CatmullRom [0, 1, 2, 3] [0, 1, 0, 1] (3 / 2) := by
  have hst : StrictIncr [0, 1, 2, 3] := by
    unfold StrictIncr
    exact of_decide_eq_true (by with_unfolding_all rfl)
  exact catmullRomWeights_reproduce [0, 1, 2, 3] [0, 1, 0, 1] (3 / 2) hst
    (by norm_num) (by norm_num)
    (of_decide_eq_true (by with_unfolding_all rfl))
    (of_decide_eq_true (by with_unfolding_all rfl))
    0 (-(1 / 16), 9 / 16, 9 / 16, -(1 / 16))
    (of_decide_eq_true (by with_unfolding_all rfl))

/-- Claim C6: `CatmullRomWeights` succeeds exactly when `x` lies in
`[nodes.front(), nodes.back()]` (the failure case is modelled as `none`,
matching the source's `return false` that leaves the weight buffer
untouched), and whenever it succeeds the four weights sum exactly to 1. -/
theorem catmullRomWeights_domain_and_sum (nodes : List ℚ) (x : ℚ)
    (hst : StrictIncr nodes) (hn : 2 ≤ nodes.length) :
    ((CatmullRomWeights nodes x).isSome = true ↔
      (nth nodes 0 ≤ x ∧ x ≤ nth nodes (nodes.length - 1))) ∧
    ∀ off w, CatmullRomWeights nodes x = some (off, w) →
      w.1 + w.2.1 + w.2.2.1 + w.2.2.2 = 1 := by
  constructor
  · constructor
    · intro hs
      by_contra hcon
      rw [CatmullRomWeights, if_pos hcon] at hs
      simp at hs
    · intro hdom
      rw [CatmullRomWeights, if_neg (not_not_intro hdom)]
      rfl
  · intro off w hw
    rw [CatmullRomWeights] at hw
    split_ifs at hw with h
    · simp only [Option.some.injEq, Prod.mk.injEq] at hw
      rw [← hw.2]
      exact crWeightsAt_sum nodes x _ nodes.length

/-- Witness for `catmullRomWeights_domain_and_sum` on the concrete table
`nodes = {0,1,2,3}`. -/
theorem catmullRomWeights_domain_and_sum_witness :
    ((CatmullRomWeights [0, 1, 2, 3] (3 / 2)).isSome = true ↔
      (nth [0, 1, 2, 3] 0 ≤ (3 / 2 : ℚ) ∧
        (3 / 2 : ℚ) ≤ nth [0, 1, 2, 3] ([0, 1, 2, 3].length - 1))) ∧
    ∀ off w, CatmullRomWeights [0, 1, 2, 3] (3 / 2) = some (off, w) →
      w.1 + w.2.1 + w.2.2.1 + w.2.2.2 = 1 := by
  have hst : StrictIncr [0, 1, 2, 3] := by
    unfold StrictIncr
    exact of_decide_eq_true (by with_unfolding_all rfl)
  exact catmullRomWeights_domain_and_sum [0, 1, 2, 3] (3 / 2) hst (by norm_num)

/-- Claim C10: in-domain, `CatmullRomWeights` produces an offset in
`[-1, n-3]`, forces `weights[0] = 0` when `offset = -1` and `weights[3] = 0`
when `offset + 3 = n`, so every index `offset + j` with `weights[j] ≠ 0`
lies in `[0, n-1]`; consequently the 2D sampler's `interpolate` helper
(which skips zero weights) only reads within the first `n * size2` entries
of its table — appending extra entries never changes its value. -/
theorem catmullRomWeights_offset_safe (nodes : List ℚ) (x : ℚ)
    (hst : StrictIncr nodes) (hn : 2 ≤ nodes.length)
    (hlo : nth nodes 0 ≤ x) (hhi : x ≤ nth nodes (nodes.length - 1)) :
    ∀ off w, CatmullRomWeights nodes x = some (off, w) →
      (-1 ≤ off ∧ off + 3 ≤ (nodes.length : ℤ)) ∧
      (off = -1 → w.1 = 0) ∧
      (off + 3 = (nodes.length : ℤ) → w.2.2.2 = 0) ∧
      ((w.1 ≠ 0 → 0 ≤ off + 0 ∧ off + 0 ≤ (nodes.length : ℤ) - 1) ∧
       (w.2.1 ≠ 0 → 0 ≤ off + 1 ∧ off + 1 ≤ (nodes.length : ℤ) - 1) ∧
       (w.2.2.1 ≠ 0 → 0 ≤ off + 2 ∧ off + 2 ≤ (nodes.length : ℤ) - 1) ∧
       (w.2.2.2 ≠ 0 → 0 ≤ off + 3 ∧ off + 3 ≤ (nodes.length : ℤ) - 1)) ∧
      (∀ (A B : List ℚ) (size2 col : ℕ), A.length = nodes.length * size2 →
        col < size2 →
        interpolate2D (A ++ B) size2 off w col = interpolate2D A size2 off w col) := by
  intro off w h
  rw [CatmullRomWeights, if_neg (not_not_intro ⟨hlo, hhi⟩)] at h
  simp only [Option.some.injEq, Prod.mk.injEq] at h
  obtain ⟨h1, h2⟩ := h
  set idx := GetIntArrayerval nodes.length (fun i => decide (nth nodes i ≤ x)) with hidx
  have hle : idx ≤ nodes.length - 2 := GetIntArrayerval_le nodes.length _ hn
  have hoff : off = (idx : ℤ) - 1 := h1.symm
  have hwz : w = crWeightsAt nodes x idx nodes.length := h2.symm
  have hfst : off = -1 → w.1 = 0 := by
    intro he
    have hz : idx = 0 := by omega
    rw [hwz, hz]
    exact crWeightsAt_fst nodes x nodes.length
  have hlast : off + 3 = (nodes.length : ℤ) → w.2.2.2 = 0 := by
    intro he
    rw [hwz]
    exact crWeightsAt_last nodes x idx nodes.length (by omega)
  have hbounds : -1 ≤ off ∧ off + 3 ≤ (nodes.length : ℤ) := by omega
  refine ⟨hbounds, hfst, hlast, ⟨?_, ?_, ?_, ?_⟩, ?_⟩
  · intro hne
    constructor
    · by_contra hcon
      exact hne (hfst (by omega))
    · omega
  · intro _
    omega
  · intro _
    omega
  · intro hne
    constructor
    · omega
    · by_contra hcon
      exact hne (hlast (by omega))
  · intro A B size2 col hA hcol
    have key : ∀ (k : ℕ), k ≤ nodes.length - 1 →
        nth (A ++ B) (k * size2 + col) = nth A (k * size2 + col) := by
      intro k hk
      have hklt : k * size2 + col < A.length := by
        rw [hA]
        calc k * size2 + col < k * size2 + size2 := by omega
          _ = (k + 1) * size2 := by ring
          _ ≤ nodes.length * size2 := Nat.mul_le_mul_right size2 (by omega)
      unfold nth
      exact List.getD_append A B _ _ hklt
    unfold interpolate2D
    congr 1
    · congr 1
      · congr 1
        · split_ifs with hz
          · rw [key (off + 0).toNat (by
              have := hfst
              by_cases he : off = -1
              · exact absurd (hfst he) hz
              · omega)]
          · rfl
        · split_ifs with hz
          · rw [key (off + 1).toNat (by omega)]
          · rfl
      · split_ifs with hz
        · rw [key (off + 2).toNat (by omega)]
        · rfl
    · split_ifs with hz
      · rw [key (off + 3).toNat (by
          by_cases he : off + 3 = (nodes.length : ℤ)
          · exact absurd (hlast he) hz
          · omega)]
      · rfl

/-- Witness for `catmullRomWeights_offset_safe`: the table `{0,1,2,3}` at
`x = 3/2` produces offset `0` with all four weights nonzero; the offset
bounds conjunct is extracted. -/
theorem catmullRomWeights_offset_safe_witness :
    -1 ≤ (0 : ℤ) ∧ (0 : ℤ) + 3 ≤ (([0, 1, 2, 3] : List ℚ).length : ℤ) := by
  have hst : StrictIncr [0, 1, 2, 3] := by
    unfold StrictIncr
    exact of_decide_eq_true (by with_unfolding_all rfl)
  exact (catmullRomWeights_offset_safe [0, 1, 2, 3] (3 / 2) hst (by norm_num)
    (of_decide_eq_true (by with_unfolding_all rfl))
    (of_decide_eq_true (by with_unfolding_all rfl))
    0 (-(1 / 16), 9 / 16, 9 / 16, -(1 / 16))
    (of_decide_eq_true (by with_unfolding_all rfl))).1

/-! ### CDF construction -/

theorem nth_map_range (g : ℕ → ℚ) (m i : ℕ) (hi : i < m) :
    nth ((List.range m).map g) i = g i := by
  unfold nth
  rw [List.getD_eq_getElem?_getD, List.getElem?_map, List.getElem?_range hi]
  rfl

/-- Claim C3: `IntegrateCatmullRom` writes `cdf[0] = 0`, accumulates
`cdf[i+1] = cdf[i] + ((d0-d1)/12 + (f0+f1)/2) * (x[i+1]-x[i])` over the
segments (with the one-sided finite-difference derivatives `d0At`/`d1At`
falling back to `f1-f0` at the domain boundaries), and returns the total,
which equals `cdf[n-1]`. -/
theorem integrateCatmullRom_cdf (x values : List ℚ)
    (hst : StrictIncr x) (hn : 2 ≤ x.length) (hlen : values.length = x.length) :
    ((IntegrateCatmullRom x values).1.length = x.length) ∧
    (nth (IntegrateCatmullRom x values).1 0 = 0) ∧
    (∀ i, i + 1 < x.length →
      nth (IntegrateCatmullRom x values).1 (i + 1) =
        nth (IntegrateCatmullRom x values).1 i +
          ((d0At x values i - d1At x values i) / 12 +
            (nth values i + nth values (i + 1)) / 2) * (nth x (i + 1) - nth x i)) ∧
    ((IntegrateCatmullRom x values).2 =
      nth (IntegrateCatmullRom x values).1 (x.length - 1)) := by
  have hseg : ∀ i, segInt x values i =
      ((d0At x values i - d1At x values i) / 12 +
        (nth values i + nth values (i + 1)) / 2) * (nth x (i + 1) - nth x i) := by
    intro i
    unfold segInt
    ring
  have hcons : ∀ i, nth (IntegrateCatmullRom x values).1 (i + 1) =
      nth ((List.range (x.length - 1)).map
        (fun i => ((List.range (i + 1)).map (segInt x values)).sum)) i := by
    intro i
    rfl
  have hg : ∀ i, i < x.length - 1 →
      nth (IntegrateCatmullRom x values).1 (i + 1) =
        ((List.range (i + 1)).map (segInt x values)).sum := by
    intro i hi
    rw [hcons, nth_map_range _ _ _ hi]
  refine ⟨?_, rfl, ?_, ?_⟩
  · show (0 :: (List.range (x.length - 1)).map _).length = x.length
    simp only [List.length_cons, List.length_map, List.length_range]
    omega
  · intro i hi
    rw [hg i (by omega), ← hseg]
    cases i with
    | zero =>
      show ((List.range 1).map (segInt x values)).sum = 0 + segInt x values 0
      simp [List.range_succ]
    | succ j =>
      rw [hg j (by omega)]
      rw [List.range_succ, List.map_append, List.sum_append]
      simp
  · show ((List.range (x.length - 1)).map (segInt x values)).sum = _
    have hx1 : x.length - 1 = (x.length - 2) + 1 := by omega
    rw [hx1, hg (x.length - 2) (by omega)]

/-- Witness for `integrateCatmullRom_cdf` at the boundary-scenario table:
the cdf entry written at index 0 is 0. -/
theorem integrateCatmullRom_cdf_witness :
    nth (IntegrateCatmullRom [0, 1, 2, 3] [0, 1, 0, 1]).1 0 = 0 := by
  have hst : StrictIncr [0, 1, 2, 3] := by
    unfold StrictIncr
    exact of_decide_eq_true (by with_unfolding_all rfl)
  exact (integrateCatmullRom_cdf [0, 1, 2, 3] [0, 1, 0, 1] hst (by norm_num)
    (by norm_num)).2.1

/-! ### The 1D sampling loop -/

theorem integrate_fst_length (x v : List ℚ) :
    (IntegrateCatmullRom x v).1.length = x.length - 1 + 1 := by
  simp [IntegrateCatmullRom]

/-- Loop invariant of the Newton–bisection of `SampleCatmullRom`: the bracket
stays inside the unit interval and the returned iterate is strictly inside
the initial bracket; the returned `fhat` is the Hermite derivative expression
evaluated at the returned iterate. -/
theorem sampleLoop_mem (f0 f1 d0 d1 u : ℚ) :
    ∀ fuel a b t tr fr, 0 ≤ a → a < b → b ≤ 1 →
      sampleLoop f0 f1 d0 d1 u fuel a b t = some (tr, fr) →
      (0 < tr ∧ tr < 1) ∧
        fr = f0 + tr * (d0 + tr * (-2 * d0 - d1 + 3 * (f1 - f0) + tr *
          (d0 + d1 + 2 * (f0 - f1)))) := by
  intro fuel
  induction fuel with
  | zero =>
    intro a b t tr fr _ _ _ h
    simp [sampleLoop] at h
  | succ fuel ih =>
    intro a b t tr fr ha hab hb1 h
    rw [sampleLoop] at h
    dsimp only at h
    generalize hT : (if ¬(t > a ∧ t < b) then (1 / 2) * (a + b) else t) = T at h
    have hTmem : a < T ∧ T < b := by
      rw [← hT]
      split_ifs with hcnd
      · exact ⟨hcnd.1, hcnd.2⟩
      · constructor <;> linarith
    generalize hF : T * (f0 + T * ((1 / 2) * d0 + T *
        ((1 / 3) * (-2 * d0 - d1) + f1 - f0 + T *
          ((1 / 4) * (d0 + d1) + (1 / 2) * (f0 - f1))))) = Fh at h
    split_ifs at h with hbreak hsign
    · simp only [Option.some.injEq, Prod.mk.injEq] at h
      obtain ⟨h1, h2⟩ := h
      subst h1
      exact ⟨⟨by linarith [hTmem.1, hTmem.2], by linarith [hTmem.1, hTmem.2]⟩, h2.symm⟩
    · exact ih T b _ tr fr (by linarith [hTmem.1]) (by exact hTmem.2) hb1 h
    · exact ih a T _ tr fr ha hTmem.1 (by linarith [hTmem.2]) h

/-- Claim C4: for valid inputs (strictly increasing `x`, nonnegative density
`f`, cdf `F` produced by `IntegrateCatmullRom` with positive total,
`u ∈ [0,1)`), whenever `SampleCatmullRom` returns, the sampled position lies
in `[x.front(), x.back()]`, `*fval` is the spline value at the sample, and
`*pdf` is that value divided by `F.back()`. -/
theorem sampleCatmullRom_outputs (x f F : List ℚ) (u : ℚ)
    (hst : StrictIncr x) (hn : 2 ≤ x.length) (hlen : f.length = x.length)
    (hF : F = (IntegrateCatmullRom x f).1)
    (hfpos : ∀ i, i < f.length → 0 ≤ nth f i)
    (hFback : 0 < nth F (F.length - 1))
    (hu0 : 0 ≤ u) (hu1 : u < 1) :
    ∀ fuel pos fv pd, SampleCatmullRom fuel x f F u = some (pos, fv, pd) →
      nth x 0 ≤ pos ∧ pos ≤ nth x (x.length - 1) ∧
      fv = CatmullRom x f pos ∧ pd = fv / nth F (F.length - 1) := by
  have hFlen : F.length = x.length := by
    rw [hF, integrate_fst_length]
    omega
  intro fuel pos fv pd h
  rw [SampleCatmullRom] at h
  set u1 := u * nth F (F.length - 1) with hu1def
  set i := GetIntArrayerval F.length (fun j => decide (nth F j ≤ u1)) with hidef
  have hile : i ≤ x.length - 2 := by
    rw [hidef, hFlen]
    exact GetIntArrayerval_le x.length _ hn
  have hwidth : 0 < nth x (i + 1) - nth x i := by
    have := hst (i + 1) (by omega) i (by omega)
    linarith
  rcases hsl : sampleLoop (nth f i) (nth f (i + 1)) (d0At x f i) (d1At x f i)
      ((u1 - nth F i) / (nth x (i + 1) - nth x i)) fuel 0 1
      (if nth f i ≠ nth f (i + 1) then
        (nth f i - SafeSqrt (nth f i * nth f i +
          2 * ((u1 - nth F i) / (nth x (i + 1) - nth x i)) *
            (nth f (i + 1) - nth f i))) / (nth f i - nth f (i + 1))
       else ((u1 - nth F i) / (nth x (i + 1) - nth x i)) / nth f i)
      with tres | ⟨t, fhat⟩
  · rw [hsl] at h
    simp at h
  · rw [hsl] at h
    simp only [Option.some.injEq, Prod.mk.injEq] at h
    obtain ⟨hpos, hfv, hpd⟩ := h
    have hmem := sampleLoop_mem _ _ _ _ _ fuel 0 1 _ t fhat le_rfl one_pos le_rfl hsl
    obtain ⟨⟨ht0, ht1⟩, hfh⟩ := hmem
    have hxlo : nth x i < pos := by
      rw [← hpos]
      nlinarith [hwidth, ht0]
    have hxhi : pos < nth x (i + 1) := by
      rw [← hpos]
      nlinarith [hwidth, ht1]
    have hfront : nth x 0 ≤ pos :=
      le_trans (hst.mono_le (by omega) (by omega)) (le_of_lt hxlo)
    have hback : pos ≤ nth x (x.length - 1) :=
      le_trans (le_of_lt hxhi) (hst.mono_le (by omega) (by omega))
    refine ⟨hfront, hback, ?_, ?_⟩
    · rw [CatmullRom, if_neg (not_not_intro ⟨hfront, hback⟩)]
      have hloc : GetIntArrayerval x.length (fun j => decide (nth x j ≤ pos)) = i :=
        getInt_nodes_eq x pos i hst hn hile (le_of_lt hxlo) hxhi
      simp only [hloc]
      have htpos : (pos - nth x i) / (nth x (i + 1) - nth x i) = t := by
        rw [← hpos]
        field_simp
      rw [htpos, ← hfv, hfh, hermite]
      ring
    · rw [← hpd, ← hfv]

/-- Witness for `sampleCatmullRom_outputs`: the uniform density `f = {1,1}`
on `x = {0,1}` (cdf `{0,1}`), at `u = 1/2`: the sampler returns position
1/2 with function value 1 and pdf 1, and the loop breaks in its first
iteration. -/
theorem sampleCatmullRom_outputs_witness :
    nth [0, 1] 0 ≤ (1 / 2 : ℚ) ∧ (1 / 2 : ℚ) ≤ nth [0, 1] ([0, 1].length - 1) ∧
    (1 : ℚ) = CatmullRom [0, 1] [1, 1] (1 / 2) ∧
    (1 : ℚ) = 1 / nth (IntegrateCatmullRom [0, 1] [1, 1]).1
      ((IntegrateCatmullRom [0, 1] [1, 1]).1.length - 1) := by
  have hst : StrictIncr [0, 1] := by
    unfold StrictIncr
    exact of_decide_eq_true (by with_unfolding_all rfl)
  exact sampleCatmullRom_outputs [0, 1] [1, 1] (IntegrateCatmullRom [0, 1] [1, 1]).1
    (1 / 2) hst (by norm_num) (by norm_num) rfl
    (of_decide_eq_true (by with_unfolding_all rfl))
    (of_decide_eq_true (by with_unfolding_all rfl))
    (by norm_num) (by norm_num)
    5 (1 / 2) 1 1 (of_decide_eq_true (by with_unfolding_all rfl))

/-- Claim C5, counterexample: for `nodes = {0,1,2,3}`, `values = {0,1,0,1}`
with the cdf produced by `IntegrateCatmullRom`, `SampleCatmullRom` at `u = 0`
does not return the position 0: the Newton–bisection loop stops at the
tolerance `|Fhat| < 1e-6` with a strictly positive parameter (the exact
rational result is ≈ 1.133e-3). -/
theorem sampleCatmullRom_u0_counter :
    (SampleCatmullRom 30 [0, 1, 2, 3] [0, 1, 0, 1]
      (IntegrateCatmullRom [0, 1, 2, 3] [0, 1, 0, 1]).1 0).map Prod.fst ≠
      some 0 :=
  of_decide_eq_true (by with_unfolding_all rfl)

/-- Claim C5, amended: with the same inputs, `SampleCatmullRom` at `u = 0`
terminates (30 loop iterations suffice) and returns a strictly positive
sample position below `1/512` — approximately 0 to within the loop's `1e-6`
residual tolerance, but not exactly 0. -/
theorem sampleCatmullRom_u0_amended :
    (SampleCatmullRom 30 [0, 1, 2, 3] [0, 1, 0, 1]
      (IntegrateCatmullRom [0, 1, 2, 3] [0, 1, 0, 1]).1 0).isSome = true ∧
    ((SampleCatmullRom 30 [0, 1, 2, 3] [0, 1, 0, 1]
      (IntegrateCatmullRom [0, 1, 2, 3] [0, 1, 0, 1]).1 0).map Prod.fst).all
        (fun r => decide (0 < r ∧ r < 1 / 512)) = true :=
  of_decide_eq_true (by with_unfolding_all rfl)

/-- For a single-coefficient series the recurrence loop is empty:
`F(φ) = a₀·φ - u·a₀·π` and `f(φ) = a₀`. -/
theorem fourierFF_single (c : ℝ) (recip : List ℝ) (u phi : ℝ) :
    fourierFF [c] recip u phi = (c * phi - u * c * Real.pi, c) := by
  simp [fourierFF, fourierLoop]

/-- When the current iterate is exactly the root `r = u'·π` (and strictly
inside the bracket), the next iteration of the `SampleFourier` loop breaks
with residual 0 and returns it. -/
theorem sfLoop_hit (c u' r : ℝ) (recip : List ℝ) (hr : r = u' * Real.pi)
    (f : ℕ) (a b : ℝ) (har : a < r) (hrb : r < b) :
    ∃ phiR, sampleFourierLoop [c] recip u' (f + 1) a b r = some (phiR, c) ∧
      a < phiR ∧ phiR < b := by
  rw [sampleFourierLoop]
  simp only [fourierFF_single]
  have hF2 : c * r - u' * c * Real.pi = 0 := by
    rw [hr]
    ring
  rw [hF2]
  simp only [if_neg (lt_irrefl (0 : ℝ))]
  rw [if_pos (Or.inl (by norm_num : |(0 : ℝ)| < 1 / 1000000))]
  exact ⟨r, rfl, har, hrb⟩

/-- Termination and bracket confinement of the `SampleFourier`
Newton–bisection for a single-coefficient series: starting from the midpoint
of a bracket of width at most `1e-6 · 2^k`, the loop returns within `k + 2`
iterations a point strictly inside the bracket, together with the constant
series value `c`.  (Each non-breaking iteration halves the bracket; a Newton
step either lands exactly on the root — which the next iteration accepts —
or leaves the bracket and is replaced by the midpoint.) -/
theorem sfLoop_run (c u' r : ℝ) (recip : List ℝ) (hc : c ≠ 0)
    (hr : r = u' * Real.pi) :
    ∀ k fuel a b phi, k + 2 ≤ fuel → a < b → phi = (1 / 2) * (a + b) →
      b - a ≤ (1 / 1000000) * 2 ^ k →
      ∃ phiR, sampleFourierLoop [c] recip u' fuel a b phi = some (phiR, c) ∧
        a < phiR ∧ phiR < b := by
  have hsub : ∀ phi, c * phi - u' * c * Real.pi = c * (phi - r) := by
    intro phi
    rw [hr]
    ring
  have hN : ∀ phi, phi - c * (phi - r) / c = r := by
    intro phi
    field_simp
  intro k
  induction k with
  | zero =>
    intro fuel a b phi hfuel hab hphi hw
    obtain ⟨f1, rfl⟩ : ∃ f1, fuel = f1 + 1 := ⟨fuel - 1, by omega⟩
    have hmem : a < phi ∧ phi < b := by
      rw [hphi]
      constructor <;> linarith
    have hhalf : b - phi < 1 / 1000000 ∧ phi - a < 1 / 1000000 := by
      norm_num at hw
      rw [hphi]
      constructor <;> linarith
    rw [sampleFourierLoop]
    simp only [fourierFF_single]
    rw [hsub phi]
    rcases lt_trichotomy (c * (phi - r)) 0 with hF | hF | hF
    · simp only [if_neg (not_lt.mpr (le_of_lt hF))]
      rw [if_pos (Or.inr hhalf.1)]
      exact ⟨phi, rfl, hmem.1, hmem.2⟩
    · rw [hF]
      simp only [if_neg (lt_irrefl (0 : ℝ))]
      rw [if_pos (Or.inl (by norm_num : |(0 : ℝ)| < 1 / 1000000))]
      exact ⟨phi, rfl, hmem.1, hmem.2⟩
    · simp only [if_pos hF]
      rw [if_pos (Or.inr hhalf.2)]
      exact ⟨phi, rfl, hmem.1, hmem.2⟩
  | succ k ih =>
    intro fuel a b phi hfuel hab hphi hw
    obtain ⟨f1, rfl⟩ : ∃ f1, fuel = f1 + 1 := ⟨fuel - 1, by omega⟩
    have hmem : a < phi ∧ phi < b := by
      rw [hphi]
      constructor <;> linarith
    have hwhalf : b - phi ≤ (1 / 1000000) * 2 ^ k ∧
        phi - a ≤ (1 / 1000000) * 2 ^ k := by
      rw [hphi]
      rw [pow_succ] at hw
      constructor <;> linarith
    rw [sampleFourierLoop]
    simp only [fourierFF_single]
    rw [hsub phi]
    rcases lt_trichotomy (c * (phi - r)) 0 with hF | hF | hF
    · -- F < 0: bracket becomes (phi, b)
      simp only [if_neg (not_lt.mpr (le_of_lt hF))]
      by_cases hbrk : |c * (phi - r)| < 1 / 1000000 ∨ b - phi < 1 / 1000000
      · rw [if_pos hbrk]
        exact ⟨phi, rfl, hmem.1, hmem.2⟩
      · rw [if_neg hbrk, hN phi]
        by_cases hrin : r > phi ∧ r < b
        · rw [if_neg (not_not_intro hrin)]
          obtain ⟨f2, rfl⟩ : ∃ f2, f1 = f2 + 1 := ⟨f1 - 1, by omega⟩
          obtain ⟨phiR, hloop, h1, h2⟩ :=
            sfLoop_hit c u' r recip hr f2 phi b hrin.1 hrin.2
          exact ⟨phiR, hloop, by linarith, h2⟩
        · rw [if_pos hrin]
          obtain ⟨phiR, hloop, h1, h2⟩ :=
            ih f1 phi b ((1 / 2) * (phi + b)) (by omega) hmem.2 rfl hwhalf.1
          exact ⟨phiR, hloop, by linarith, h2⟩
    · -- F = 0: break with zero residual
      rw [hF]
      simp only [if_neg (lt_irrefl (0 : ℝ))]
      rw [if_pos (Or.inl (by norm_num : |(0 : ℝ)| < 1 / 1000000))]
      exact ⟨phi, rfl, hmem.1, hmem.2⟩
    · -- F > 0: bracket becomes (a, phi)
      simp only [if_pos hF]
      by_cases hbrk : |c * (phi - r)| < 1 / 1000000 ∨ phi - a < 1 / 1000000
      · rw [if_pos hbrk]
        exact ⟨phi, rfl, hmem.1, hmem.2⟩
      · rw [if_neg hbrk, hN phi]
        by_cases hrin : r > a ∧ r < phi
        · rw [if_neg (not_not_intro hrin)]
          obtain ⟨f2, rfl⟩ : ∃ f2, f1 = f2 + 1 := ⟨f1 - 1, by omega⟩
          obtain ⟨phiR, hloop, h1, h2⟩ :=
            sfLoop_hit c u' r recip hr f2 a phi hrin.1 hrin.2
          exact ⟨phiR, hloop, h1, by linarith⟩
        · rw [if_pos hrin]
          obtain ⟨phiR, hloop, h1, h2⟩ :=
            ih f1 a phi ((1 / 2) * (a + phi)) (by omega) hmem.1 rfl hwhalf.2
          exact ⟨phiR, hloop, h1, by linarith⟩

/-- Claim C8: for a single-coefficient Fourier series `a₀ = c ≠ 0` and any
`u ∈ [0,1)`, `SampleFourier` returns the series value `f = c`, writes the
constant PDF `1/(2π)`, and writes a `φ ∈ [0, 2π)`. -/
theorem sampleFourier_single (c : ℝ) (recip : List ℝ) (u : ℝ) (hc : c ≠ 0)
    (hu0 : 0 ≤ u) (hu1 : u < 1) :
    ∃ phi, SampleFourier 30 [c] recip u = some (c, 1 / (2 * Real.pi), phi) ∧
      0 ≤ phi ∧ phi < 2 * Real.pi := by
  rw [SampleFourier]
  set u' := if u ≥ 1 / 2 then 1 - 2 * (u - 1 / 2) else 2 * u with hu'
  have hw : Real.pi - 0 ≤ (1 / 1000000) * 2 ^ 22 := by
    have := Real.pi_le_four
    norm_num
    linarith
  obtain ⟨phiR, hloop, h1, h2⟩ := sfLoop_run c u' (u' * Real.pi) recip hc rfl
    22 30 0 Real.pi ((1 / 2) * Real.pi) (by omega) Real.pi_pos
    (by rw [zero_add]) hw
  rw [hloop]
  dsimp only
  have hgetD : ([c] : List ℝ).getD 0 0 = c := rfl
  rw [hgetD]
  have hpdf : 1 / (2 * Real.pi) * c / c = 1 / (2 * Real.pi) := by
    rw [mul_div_assoc, div_self hc, mul_one]
  rw [hpdf]
  refine ⟨if u ≥ 1 / 2 then 2 * Real.pi - phiR else phiR, rfl, ?_, ?_⟩
  · split_ifs with hflip
    · linarith
    · linarith
  · split_ifs with hflip
    · linarith
    · linarith [Real.pi_pos]

/-- Witness for `sampleFourier_single`: the constant series `a₀ = 1` sampled
at `u = 0`. -/
theorem sampleFourier_single_witness :
    ∃ phi, SampleFourier 30 [(1 : ℝ)] [0] 0 = some (1, 1 / (2 * Real.pi), phi) ∧
      0 ≤ phi ∧ phi < 2 * Real.pi :=
  sampleFourier_single 1 [0] 0 (by norm_num) (by norm_num) (by norm_num)

end PbrtInterp
